import Mathlib

/-!
# Shallow embedding of `ts-queue` (`src/lib.rs`)

The Rust crate implements the classic two-lock FIFO queue over a singly
linked list of heap-allocated `Node<T>` cells addressed by raw pointers
(`NonNull<Node<T>>`).  We embed it with an explicit heap: addresses are
natural numbers, the heap is the list of all nodes ever allocated (address
`i` is position `i`; allocation appends, so fresh addresses are always
larger than every live one), and pointer identity is address equality.
`Box` drops are recorded in a log carrying the node's field values at the
moment it is released, so that claims about the teardown discipline
("`next` is detached before the node is dropped") are statable.

Locking is erased: each public operation is one atomic state transformer,
which matches the source because every mutation of shared state happens
inside a critical section of one of the two mutexes (the concurrency claim
is treated separately with an interleaving relation over these atomic
operations).
-/

/-- `Node<T>` from `src/lib.rs` (lines 22-25): optional payload `data` and
optional link `next` to the successor's address. -/
structure Node (α : Type) where
  data : Option α
  next : Option Nat
deriving Repr, DecidableEq

/-- Read the heap at address `i`.  Out-of-range reads never happen on
reachable states; the default keeps the function total. -/
def getNode {α : Type} (h : List (Node α)) (i : Nat) : Node α :=
  (h[i]?).getD ⟨none, none⟩

/-- `Node::new` (lines 32-39): leak a fresh `Node { data: None, next: None }`
and return its address.  Allocation appends to the heap, so the address is
the old heap length. -/
def allocNode {α : Type} (h : List (Node α)) : Nat × List (Node α) :=
  (h.length, h ++ [⟨none, none⟩])

/-- `TsQueue<T>` (lines 5-8): the two cursors.  `heap` models the Rust
allocator's store of every node ever created; `dropLog` records each
`Box<Node<T>>` drop performed by `dequeue`, with the node's field values at
the moment of the drop. -/
structure TsQueue (α : Type) where
  heap : List (Node α)
  head : Nat
  tail : Nat
  dropLog : List (Nat × Node α)
deriving Repr, DecidableEq

namespace TsQueue

/-- `TsQueue::new` (lines 42-50): one dummy node, both cursors on it. -/
def new {α : Type} : TsQueue α :=
  let (dummy, heap) := allocNode ([] : List (Node α))
  { heap := heap, head := dummy, tail := dummy, dropLog := [] }

/-- `TsQueue::enqueue` (lines 52-61): allocate a fresh empty node, write
`data` into the current tail node, attach the fresh node as its successor,
and advance the tail cursor to the fresh node. -/
def enqueue {α : Type} (q : TsQueue α) (v : α) : TsQueue α :=
  let (node, heap0) := allocNode q.heap
  let heap1 := heap0.set q.tail { getNode heap0 q.tail with data := some v }
  let heap2 := heap1.set q.tail { getNode heap1 q.tail with next := some node }
  { q with heap := heap2, tail := node }

/-- `TsQueue::dequeue` (lines 63-73).  The pointer-identity emptiness check
is address equality.  On the non-empty path the old head box is taken, its
`data` and `next` are `take`n (leaving `⟨none, none⟩` behind), the head
cursor advances to the successor, and the box is dropped (logged).  The
`expect` on a missing successor is the `Except.error` branch. -/
def dequeue {α : Type} (q : TsQueue α) : Except String (Option α × TsQueue α) :=
  if q.head = q.tail then
    Except.ok (none, q)
  else
    let head_box := getNode q.heap q.head
    match head_box.next with
    | none => Except.error "head != tail but head.next is empty"
    | some new_head =>
        Except.ok (head_box.data,
          { q with
              heap := q.heap.set q.head ⟨none, none⟩,
              head := new_head,
              dropLog := q.dropLog ++ [(q.head, (⟨none, none⟩ : Node α))] })

end TsQueue

/-- The loop of `TsQueue::drop` (lines 9-16): starting from address `x`,
repeatedly `take` the current box's `next` and move to it, dropping the old
box (whose `next` is now detached); the final box is dropped with its
`next` already absent.  Returns the drop events in order.  `fuel` bounds
the walk so the function is total; on reachable states a fuel of
`heap.length` is proved sufficient. -/
def dropWalk {α : Type} (heap : List (Node α)) : Nat → Nat → List (Nat × Node α)
  | 0, _ => []
  | fuel + 1, x =>
    let n := getNode heap x
    match n.next with
    | none => [(x, n)]
    | some nx => (x, { n with next := none }) :: dropWalk heap fuel nx

/-- `impl Drop for TsQueue` (lines 9-16): walk the chain from the head
cursor, releasing every box. -/
def TsQueue.dropAll {α : Type} (q : TsQueue α) : List (Nat × Node α) :=
  dropWalk q.heap q.heap.length q.head

/-- Enqueue each element of `vs` in order (the single-producer loop of the
tests). -/
def enqueueAll {α : Type} (q : TsQueue α) (vs : List α) : TsQueue α :=
  vs.foldl TsQueue.enqueue q

/-- Perform `n` dequeues, collecting the returned options; a panic anywhere
aborts the whole run. -/
def dequeueN {α : Type} : Nat → TsQueue α → Except String (List (Option α) × TsQueue α)
  | 0, q => Except.ok ([], q)
  | n + 1, q =>
    (q.dequeue).bind fun p =>
      (dequeueN n p.2).map fun r => (p.1 :: r.1, r.2)

/-- The value component of a dequeue, `none` on panic. -/
def deqVal {α : Type} (q : TsQueue α) : Option (Option α) :=
  (q.dequeue).toOption.map Prod.fst

/-- The post-state of a dequeue, `none` on panic. -/
def deqState {α : Type} (q : TsQueue α) : Option (TsQueue α) :=
  (q.dequeue).toOption.map Prod.snd

/-- The chain shape invariant, with the witnessing address list explicit:
`chainOK heap addrs vs` says `addrs` is a non-empty path through `heap`
linked by `next`, whose non-final nodes carry the payloads `vs` in order
and whose final node (the tail / open slot) is `⟨none, none⟩`. -/
inductive chainOK {α : Type} (heap : List (Node α)) : List Nat → List α → Prop
  | nil (t : Nat) (ht : getNode heap t = ⟨none, none⟩) (hlt : t < heap.length) :
      chainOK heap [t] []
  | cons (x y : Nat) (addrs : List Nat) (v : α) (vs : List α)
      (hx : getNode heap x = ⟨some v, some y⟩) (hlt : x < heap.length)
      (hrest : chainOK heap (y :: addrs) vs) :
      chainOK heap (x :: y :: addrs) (v :: vs)

/-- Representation relation: the queue state `q` holds exactly the values
`vs` (front first).  The chain runs from the head cursor to the tail
cursor, and its addresses are strictly increasing (allocation order), hence
free of duplicates. -/
def Models {α : Type} (q : TsQueue α) (vs : List α) : Prop :=
  ∃ addrs : List Nat,
    addrs.head? = some q.head ∧
    addrs.getLast? = some q.tail ∧
    chainOK q.heap addrs vs ∧
    addrs.Pairwise (· < ·)

/-- States reachable through the public API: `new`, then any sequence of
`enqueue` and (non-panicking) `dequeue`. -/
inductive Reachable {α : Type} : TsQueue α → Prop
  | new : Reachable TsQueue.new
  | enq {q : TsQueue α} (v : α) : Reachable q → Reachable (q.enqueue v)
  | deq {q q' : TsQueue α} {r : Option α} :
      Reachable q → q.dequeue = Except.ok (r, q') → Reachable q'

/-- One interleaving step of the producer/consumer test (`multi_threaded`,
lines 101-127): configurations are (queue state, producer counter, consumer
log).  The producer enqueues `0, 1, 2, ...` up to `N` values; the consumer
performs one complete `dequeue` and appends a returned value to its log.
Each step is one whole operation, which is faithful because every mutation
of shared state in the source happens under one of the two mutexes: all
enqueues are serialized by the tail lock, all dequeues by the head lock,
and a dequeue's cross-lock tail read happens either before or after any
complete enqueue, never in the middle of one. -/
inductive CStep (N : Nat) :
    TsQueue Nat × Nat × List Nat → TsQueue Nat × Nat × List Nat → Prop
  | produce (q : TsQueue Nat) (p : Nat) (acc : List Nat) (hp : p < N) :
      CStep N (q, p, acc) (q.enqueue p, p + 1, acc)
  | consume (q q' : TsQueue Nat) (p : Nat) (acc : List Nat) (r : Option Nat)
      (hd : q.dequeue = Except.ok (r, q')) :
      CStep N (q, p, acc) (q', p, acc ++ r.toList)

/-- The queue after the producer's first `n` enqueues of `0, ..., n-1`. -/
def prodState : Nat → TsQueue Nat
  | 0 => TsQueue.new
  | n + 1 => (prodState n).enqueue n

/-! ## Heap access lemmas -/

theorem getNode_set_self {α : Type} (h : List (Node α)) (i : Nat) (n : Node α)
    (hi : i < h.length) : getNode (h.set i n) i = n := by
  simp [getNode, List.getElem?_set_self', List.getElem?_eq_getElem, hi]

theorem getNode_set_ne {α : Type} (h : List (Node α)) (i j : Nat) (n : Node α)
    (hij : i ≠ j) : getNode (h.set i n) j = getNode h j := by
  simp [getNode, List.getElem?_set_ne hij]

theorem getNode_append_left {α : Type} (h h' : List (Node α)) (i : Nat)
    (hi : i < h.length) : getNode (h ++ h') i = getNode h i := by
  simp [getNode, List.getElem?_append_left hi]

theorem getNode_append_length {α : Type} (h : List (Node α)) (n : Node α) :
    getNode (h ++ [n]) h.length = n := by
  simp [getNode, List.getElem?_concat_length]

/-! ## Chain lemmas -/

theorem chainOK_ne_nil {α : Type} {heap : List (Node α)} {addrs : List Nat}
    {vs : List α} (hc : chainOK heap addrs vs) : addrs ≠ [] := by
  cases hc <;> simp

theorem chainOK_length {α : Type} {heap : List (Node α)} {addrs : List Nat}
    {vs : List α} (hc : chainOK heap addrs vs) : addrs.length = vs.length + 1 := by
  induction hc with
  | nil => rfl
  | cons x y addrs v vs hx hlt hrest ih => simpa using ih

theorem chainOK_bounds {α : Type} {heap : List (Node α)} {addrs : List Nat}
    {vs : List α} (hc : chainOK heap addrs vs) : ∀ x ∈ addrs, x < heap.length := by
  induction hc with
  | nil t ht hlt => intro x hx; simp at hx; simpa [hx]
  | cons x y addrs v vs hx hlt hrest ih =>
      intro z hz
      rcases List.mem_cons.1 hz with h | h
      · simpa [h]
      · exact ih z h

theorem chainOK_head {α : Type} {heap : List (Node α)} {x : Nat} {addrs : List Nat}
    {vs : List α} (hc : chainOK heap (x :: addrs) vs) :
    (vs = [] ∧ addrs = [] ∧ getNode heap x = ⟨none, none⟩) ∨
    (∃ v vs' y, vs = v :: vs' ∧ getNode heap x = ⟨some v, some y⟩) := by
  cases hc with
  | nil => exact Or.inl ⟨rfl, rfl, by assumption⟩
  | cons _ y _ v vs' hx _ _ => exact Or.inr ⟨v, vs', y, rfl, hx⟩

theorem chainOK_last {α : Type} {heap : List (Node α)} {addrs : List Nat}
    {vs : List α} (hc : chainOK heap addrs vs) :
    ∃ t, addrs.getLast? = some t ∧ getNode heap t = ⟨none, none⟩ := by
  induction hc with
  | nil t ht hlt => exact ⟨t, rfl, ht⟩
  | cons x y addrs v vs hx hlt hrest ih =>
      rcases ih with ⟨t, h1, h2⟩
      exact ⟨t, by rw [List.getLast?_cons_cons]; exact h1, h2⟩

/-- Every non-final node of a chain holds a payload; since the final node
holds none, the tail address differs from every earlier chain address. -/
theorem chainOK_data_ne_tail {α : Type} {heap : List (Node α)} {addrs : List Nat}
    {vs : List α} (hc : chainOK heap addrs vs) {t : Nat}
    (ht : getNode heap t = ⟨none, none⟩) :
    ∀ x ∈ addrs.dropLast, x ≠ t := by
  induction hc with
  | nil => simp
  | cons x y addrs v vs hx hlt hrest ih =>
      intro z hz
      rw [List.dropLast_cons_of_ne_nil (by simp)] at hz
      rcases List.mem_cons.1 hz with h | h
      · subst h
        intro hzt
        rw [hzt, ht] at hx
        exact (Option.some_ne_none v (by injection hx with h1 h2; exact h1.symm)).elim
      · exact ih z h

/-- A chain is untouched by heap modifications at addresses outside it. -/
theorem chainOK_congr {α : Type} {heap heap' : List (Node α)} {addrs : List Nat}
    {vs : List α} (hc : chainOK heap addrs vs)
    (hsame : ∀ x ∈ addrs, getNode heap' x = getNode heap x)
    (hlen : ∀ x ∈ addrs, x < heap'.length) :
    chainOK heap' addrs vs := by
  induction hc with
  | nil t ht hlt =>
      exact chainOK.nil t (by rw [hsame t (by simp)]; exact ht) (hlen t (by simp))
  | cons x y addrs v vs hx hlt hrest ih =>
      exact chainOK.cons x y addrs v vs
        (by rw [hsame x (by simp)]; exact hx)
        (hlen x (by simp))
        (ih (fun z hz => hsame z (List.mem_cons_of_mem _ hz))
            (fun z hz => hlen z (List.mem_cons_of_mem _ hz)))

/-! ## Simple facts about the operations -/

theorem enqueue_head {α : Type} (q : TsQueue α) (v : α) :
    (q.enqueue v).head = q.head := rfl

theorem enqueue_tail {α : Type} (q : TsQueue α) (v : α) :
    (q.enqueue v).tail = q.heap.length := rfl

theorem enqueue_dropLog {α : Type} (q : TsQueue α) (v : α) :
    (q.enqueue v).dropLog = q.dropLog := rfl

theorem enqueue_heap_length {α : Type} (q : TsQueue α) (v : α) :
    (q.enqueue v).heap.length = q.heap.length + 1 := by
  simp [TsQueue.enqueue, allocNode]

/-- Under the bound that holds on every reachable state, the two field
writes of `enqueue` amount to one update of the old tail node. -/
theorem enqueue_heap {α : Type} (q : TsQueue α) (v : α)
    (ht : q.tail < q.heap.length) :
    (q.enqueue v).heap =
      (q.heap ++ [(⟨none, none⟩ : Node α)]).set q.tail ⟨some v, some q.heap.length⟩ := by
  have ht' : q.tail < (q.heap ++ [(⟨none, none⟩ : Node α)]).length := by
    simp; omega
  simp only [TsQueue.enqueue, allocNode]
  rw [getNode_set_self _ _ _ ht', List.set_set]

theorem new_head {α : Type} : (TsQueue.new : TsQueue α).head = 0 := rfl

theorem new_tail {α : Type} : (TsQueue.new : TsQueue α).tail = 0 := rfl

/-! ## The representation invariant -/

theorem models_new {α : Type} : Models (TsQueue.new : TsQueue α) [] := by
  refine ⟨[0], rfl, rfl, ?_, by simp⟩
  exact chainOK.nil 0 rfl (by simp [TsQueue.new, allocNode])

/-- A sorted-address list has no duplicates. -/
theorem pairwise_lt_nodup {l : List Nat} (h : l.Pairwise (· < ·)) : l.Nodup :=
  h.imp Nat.ne_of_lt

/-- A duplicate-free list of addresses below `n` has at most `n` entries. -/
theorem nodup_length_le {l : List Nat} {n : Nat} (hn : l.Nodup)
    (hb : ∀ x ∈ l, x < n) : l.length ≤ n := by
  classical
  have h1 : l.toFinset.card = l.length := List.toFinset_card_of_nodup hn
  have h2 : l.toFinset ⊆ Finset.range n := by
    intro x hx
    simpa using hb x (List.mem_toFinset.1 hx)
  have h3 := Finset.card_le_card h2
  simpa [h1, Finset.card_range] using h3

/-- Extending a chain by one enqueue: write the value and the fresh link
into the old tail node (at address `t`, the chain's last entry) and append
the fresh node's address. -/
theorem chainOK_extend {α : Type} {heap : List (Node α)} {t : Nat} (v : α) :
    ∀ {addrs : List Nat} {vs : List α}, chainOK heap addrs vs →
      addrs.getLast? = some t →
      chainOK ((heap ++ [(⟨none, none⟩ : Node α)]).set t ⟨some v, some heap.length⟩)
        (addrs ++ [heap.length]) (vs ++ [v]) := by
  intro addrs vs hc
  induction hc with
  | nil t' ht' hlt =>
      intro hlast
      have htt : t' = t := by simpa using hlast
      subst htt
      have hlen : ((heap ++ [(⟨none, none⟩ : Node α)]).set t'
          ⟨some v, some heap.length⟩).length = heap.length + 1 := by simp
      refine chainOK.cons t' heap.length [] v []
        ?_ (by omega) (chainOK.nil heap.length ?_ (by omega))
      · exact getNode_set_self _ _ _ (by simp; omega)
      · rw [getNode_set_ne _ _ _ _ (Nat.ne_of_lt hlt), getNode_append_length]
  | cons x y addrs' v' vs' hx hlt hrest ih =>
      intro hlast
      rw [List.getLast?_cons_cons] at hlast
      obtain ⟨t', hlast', hnodet⟩ := chainOK_last hrest
      have htt : t' = t := by rw [hlast'] at hlast; injection hlast
      rw [htt] at hnodet
      have hxt : x ≠ t := by
        intro hx'
        rw [hx'] at hx
        rw [hnodet] at hx
        injection hx with h1 h2
        exact Option.some_ne_none v' h1.symm
      refine chainOK.cons x y (addrs' ++ [heap.length]) v' (vs' ++ [v]) ?_ (by simp; omega) ?_
      · rw [getNode_set_ne _ _ _ _ (Ne.symm hxt), getNode_append_left _ _ _ hlt]
        exact hx
      · exact ih hlast

theorem Models.enqueue {α : Type} {q : TsQueue α} {vs : List α}
    (hm : Models q vs) (v : α) : Models (q.enqueue v) (vs ++ [v]) := by
  obtain ⟨addrs, hhead, hlast, hc, hsorted⟩ := hm
  have hb := chainOK_bounds hc
  have htmem : q.tail ∈ addrs := List.mem_of_mem_getLast? (by simp [hlast])
  have ht : q.tail < q.heap.length := hb _ htmem
  refine ⟨addrs ++ [q.heap.length], ?_, ?_, ?_, ?_⟩
  · rw [enqueue_head]
    cases addrs with
    | nil => simp at hhead
    | cons a l => simpa using hhead
  · rw [enqueue_tail]
    simp
  · rw [enqueue_heap q v ht]
    exact chainOK_extend v hc hlast
  · rw [List.pairwise_append]
    refine ⟨hsorted, by simp, ?_⟩
    intro a ha b hb'
    simp at hb'
    rw [hb']
    exact hb a ha

theorem Models.dequeue_empty {α : Type} {q : TsQueue α} (hm : Models q []) :
    q.dequeue = Except.ok (none, q) := by
  obtain ⟨addrs, hhead, hlast, hc, _⟩ := hm
  have hlen := chainOK_length hc
  cases addrs with
  | nil => simp at hhead
  | cons a l =>
    cases l with
    | cons b l' => simp at hlen
    | nil =>
      simp at hhead hlast
      have hht : q.head = q.tail := by rw [← hhead, ← hlast]
      simp [TsQueue.dequeue, hht]

theorem Models.dequeue_cons {α : Type} {q : TsQueue α} {v : α} {vs : List α}
    (hm : Models q (v :: vs)) :
    ∃ q', q.dequeue = Except.ok (some v, q') ∧ Models q' vs ∧
      (getNode q.heap q.head).data = some v ∧
      (getNode q.heap q.head).next = some q'.head ∧
      q'.tail = q.tail ∧
      q'.dropLog = q.dropLog ++ [(q.head, (⟨none, none⟩ : Node α))] := by
  obtain ⟨addrs, hhead, hlast, hc, hsorted⟩ := hm
  cases hc with
  | cons x y addrs' v' vs' hx hlt hrest =>
    have hxq : x = q.head := by simpa using hhead
    rw [List.getLast?_cons_cons] at hlast
    obtain ⟨t', hlast', hnodet⟩ := chainOK_last hrest
    have htq : t' = q.tail := by rw [hlast'] at hlast; injection hlast
    rw [htq] at hnodet
    have hx' : getNode q.heap q.head = ⟨some v, some y⟩ := by rw [← hxq]; exact hx
    have hne : q.head ≠ q.tail := by
      intro h
      rw [h, hnodet] at hx'
      injection hx' with h1 h2
      exact Option.some_ne_none v h1.symm
    refine ⟨⟨q.heap.set q.head ⟨none, none⟩, y, q.tail,
             q.dropLog ++ [(q.head, (⟨none, none⟩ : Node α))]⟩,
            ?_, ?_, by rw [hx'], by rw [hx'], rfl, rfl⟩
    · simp [TsQueue.dequeue, hne, hx']
    · have hxlt : ∀ z ∈ y :: addrs', x < z := by
        intro z hz
        exact (List.pairwise_cons.1 hsorted).1 z hz
      refine ⟨y :: addrs', rfl, hlast, ?_, hsorted.of_cons⟩
      refine chainOK_congr hrest ?_ ?_
      · intro z hz
        rw [hxq] at hxlt
        exact getNode_set_ne _ _ _ _ (Nat.ne_of_lt (hxlt z hz))
      · intro z hz
        have := chainOK_bounds hrest z hz
        simpa using this

theorem reachable_models {α : Type} {q : TsQueue α} (h : Reachable q) :
    ∃ vs, Models q vs := by
  induction h with
  | new => exact ⟨[], models_new⟩
  | enq v _ ih =>
      obtain ⟨vs, hm⟩ := ih
      exact ⟨vs ++ [v], hm.enqueue v⟩
  | deq _ heq ih =>
      obtain ⟨vs, hm⟩ := ih
      cases vs with
      | nil =>
          have h2 := hm.dequeue_empty
          rw [heq] at h2
          injection h2 with h3
          injection h3 with h4 h5
          exact ⟨[], h5 ▸ hm⟩
      | cons v vs' =>
          obtain ⟨q'', heq2, hm', _⟩ := hm.dequeue_cons
          rw [heq] at heq2
          injection heq2 with h3
          injection h3 with h4 h5
          exact ⟨vs', h5 ▸ hm'⟩

/-- Complete case analysis of a non-panicking `dequeue` straight from the
definition. -/
theorem dequeue_cases {α : Type} {q q' : TsQueue α} {r : Option α}
    (heq : q.dequeue = Except.ok (r, q')) :
    (q.head = q.tail ∧ r = none ∧ q' = q) ∨
    (q.head ≠ q.tail ∧ ∃ y, (getNode q.heap q.head).next = some y ∧
      r = (getNode q.heap q.head).data ∧
      q' = ⟨q.heap.set q.head ⟨none, none⟩, y, q.tail,
            q.dropLog ++ [(q.head, (⟨none, none⟩ : Node α))]⟩) := by
  by_cases hht : q.head = q.tail
  · left
    simp [TsQueue.dequeue, hht] at heq
    exact ⟨hht, heq.1.symm, heq.2.symm⟩
  · right
    cases hnext : (getNode q.heap q.head).next with
    | none => simp [TsQueue.dequeue, hht, hnext] at heq
    | some y =>
        simp [TsQueue.dequeue, hht, hnext] at heq
        refine ⟨hht, y, rfl, heq.1.symm, ?_⟩
        exact heq.2.symm

/-- Every drop event of the destructor walk carries a node whose `next` is
already detached. -/
theorem dropWalk_next_none {α : Type} (heap : List (Node α)) :
    ∀ (fuel x : Nat), ∀ e ∈ dropWalk heap fuel x, e.2.next = none := by
  intro fuel
  induction fuel with
  | zero => intro x e he; simp [dropWalk] at he
  | succ f ih =>
      intro x e he
      rw [dropWalk] at he
      cases hnext : (getNode heap x).next with
      | none =>
          rw [hnext] at he
          simp at he
          rw [he]
          exact hnext
      | some nx =>
          rw [hnext] at he
          simp at he
          rcases he with he | he
          · rw [he]
          · exact ih nx e he

/-- With enough fuel, the destructor walk releases exactly the chain, in
order, its `next` fields detached. -/
theorem dropWalk_chain {α : Type} {heap : List (Node α)} {addrs : List Nat}
    {vs : List α} (hc : chainOK heap addrs vs) :
    ∀ fuel, addrs.length ≤ fuel → ∀ x, addrs.head? = some x →
      dropWalk heap fuel x =
        addrs.map (fun a => (a, { getNode heap a with next := none })) := by
  induction hc with
  | nil t ht hlt =>
      intro fuel hfuel x hx
      have hxt : x = t := by simpa using hx.symm
      subst hxt
      cases fuel with
      | zero => simp at hfuel
      | succ f =>
          rw [dropWalk]
          simp only [ht]
          simp [ht]
  | cons x' y addrs' v vs' hx' hlt hrest ih =>
      intro fuel hfuel x hx
      have hxx : x = x' := by simpa using hx.symm
      subst hxx
      cases fuel with
      | zero => simp at hfuel
      | succ f =>
          rw [dropWalk]
          simp only [hx']
          have hrec := ih f (by simp at hfuel ⊢; omega) y rfl
          simp [hx', hrec]

/-! ## Derived facts about the representation -/

theorem Models.cons_head_ne_tail {α : Type} {q : TsQueue α} {v : α} {vs : List α}
    (hm : Models q (v :: vs)) : q.head ≠ q.tail := by
  obtain ⟨q', heq, _⟩ := hm.dequeue_cons
  intro hht
  simp [TsQueue.dequeue, hht] at heq

theorem Models.head_eq_tail_iff {α : Type} {q : TsQueue α} {vs : List α}
    (hm : Models q vs) : q.head = q.tail ↔ vs = [] := by
  cases vs with
  | nil =>
      refine ⟨fun _ => rfl, fun _ => ?_⟩
      obtain ⟨addrs, hhead, hlast, hc, _⟩ := hm
      cases hc with
      | nil t ht hlt =>
          simp at hhead hlast
          rw [← hhead, ← hlast]
  | cons v vs' =>
      refine ⟨fun h => absurd h hm.cons_head_ne_tail, fun h => by cases h⟩

theorem Models.tail_node {α : Type} {q : TsQueue α} {vs : List α}
    (hm : Models q vs) : getNode q.heap q.tail = ⟨none, none⟩ := by
  obtain ⟨addrs, hhead, hlast, hc, _⟩ := hm
  obtain ⟨t, h1, h2⟩ := chainOK_last hc
  rw [hlast] at h1
  injection h1 with h
  rw [h]
  exact h2

theorem Models.head_node_cons {α : Type} {q : TsQueue α} {v : α} {vs : List α}
    (hm : Models q (v :: vs)) :
    (getNode q.heap q.head).data = some v ∧
      ∃ y, (getNode q.heap q.head).next = some y := by
  obtain ⟨q', _, _, hdata, hnext, _⟩ := hm.dequeue_cons
  exact ⟨hdata, q'.head, hnext⟩

theorem Models.tail_lt {α : Type} {q : TsQueue α} {vs : List α}
    (hm : Models q vs) : q.tail < q.heap.length := by
  obtain ⟨addrs, _, hlast, hc, _⟩ := hm
  exact chainOK_bounds hc _ (List.mem_of_mem_getLast? (by simp [hlast]))

theorem Models.enqueueAll_eq {α : Type} {q : TsQueue α} {vs : List α}
    (hm : Models q vs) (ws : List α) : Models (enqueueAll q ws) (vs ++ ws) := by
  induction ws generalizing q vs with
  | nil => simpa using hm
  | cons w ws ih =>
      have h := ih (hm.enqueue w)
      simpa [enqueueAll] using h

theorem Models.dequeueN_eq {α : Type} {q : TsQueue α} {vs : List α}
    (hm : Models q vs) :
    ∃ q', dequeueN vs.length q = Except.ok (vs.map some, q') ∧ Models q' [] := by
  induction vs generalizing q with
  | nil => exact ⟨q, rfl, hm⟩
  | cons v vs ih =>
      obtain ⟨q1, heq, hm1, _⟩ := hm.dequeue_cons
      obtain ⟨q', h2, h3⟩ := ih hm1
      refine ⟨q', ?_, h3⟩
      simp [dequeueN, heq, h2, Except.bind, Except.map]

/-! ## The producer/consumer interleaving -/

/-- The interleaving invariant: the consumer's log followed by the queue's
current contents is exactly the values produced so far, in order. -/
theorem cstep_inv {N : Nat} {c c' : TsQueue Nat × Nat × List Nat}
    (hstep : CStep N c c')
    (hI : ∃ vs, Models c.1 vs ∧ c.2.2 ++ vs = List.range c.2.1 ∧ c.2.1 ≤ N) :
    ∃ vs, Models c'.1 vs ∧ c'.2.2 ++ vs = List.range c'.2.1 ∧ c'.2.1 ≤ N := by
  obtain ⟨vs, hm, hacc, hpN⟩ := hI
  cases hstep with
  | produce q p acc hp =>
      refine ⟨vs ++ [p], hm.enqueue p, ?_, hp⟩
      simp only at hacc ⊢
      rw [← List.append_assoc, hacc, List.range_succ]
  | consume q q' p acc r hd =>
      cases vs with
      | nil =>
          have h2 := hm.dequeue_empty
          rw [hd] at h2
          injection h2 with h3
          injection h3 with h4 h5
          refine ⟨[], h5 ▸ hm, ?_, hpN⟩
          simp only at hacc ⊢
          rw [h4]
          simpa using hacc
      | cons v vs' =>
          obtain ⟨q1, heq, hm', _⟩ := hm.dequeue_cons
          rw [hd] at heq
          injection heq with h3
          injection h3 with h4 h5
          refine ⟨vs', h5 ▸ hm', ?_, hpN⟩
          simp only at hacc ⊢
          rw [h4]
          simpa using hacc

theorem interleave_inv {N : Nat} {c : TsQueue Nat × Nat × List Nat}
    (h : Relation.ReflTransGen (CStep N) (TsQueue.new, 0, []) c) :
    ∃ vs, Models c.1 vs ∧ c.2.2 ++ vs = List.range c.2.1 ∧ c.2.1 ≤ N := by
  induction h with
  | refl => exact ⟨[], models_new, by simp, Nat.zero_le N⟩
  | tail hsteps hstep ih => exact cstep_inv hstep ih

/-- If the consumer's log ends with `N - 1`, the log is exactly
`0, ..., N-1`: no loss, no duplication, ascending order. -/
theorem interleave_collects_all {N : Nat} {q : TsQueue Nat} {p : Nat}
    {acc : List Nat}
    (h : Relation.ReflTransGen (CStep N) (TsQueue.new, 0, []) (q, p, acc))
    (hlast : acc.getLast? = some (N - 1)) (hN : 0 < N) :
    acc = List.range N := by
  obtain ⟨vs, hm, hacc, hpN⟩ := interleave_inv h
  simp only at hacc hpN
  have hmem : N - 1 ∈ acc := List.mem_of_mem_getLast? (by simp [hlast])
  have hmem' : N - 1 ∈ List.range p := by
    rw [← hacc]
    exact List.mem_append_left _ hmem
  have hlt : N - 1 < p := List.mem_range.1 hmem'
  have hpn : p = N := by omega
  subst hpn
  have hlen : acc.length + vs.length = p := by
    have hl := congrArg List.length hacc
    simpa using hl
  have htake : acc = (List.range p).take acc.length := by
    rw [← hacc, List.take_left]
  have hacc' : acc = List.range acc.length := by
    have hle : acc.length ≤ p := by omega
    conv_lhs => rw [htake]
    rw [List.take_range, Nat.min_eq_left hle]
  cases hk : acc.length with
  | zero =>
      rw [List.length_eq_zero] at hk
      rw [hk] at hlast
      simp at hlast
  | succ k =>
      rw [hk] at hacc'
      rw [hacc'] at hlast
      have hr : (List.range (k + 1)).getLast? = some k := by
        rw [List.range_succ]
        simp
      rw [hr] at hlast
      injection hlast with hkN
      have : k + 1 = p := by omega
      rw [hacc', this]

theorem models_prodState (n : Nat) : Models (prodState n) (List.range n) := by
  induction n with
  | zero => simpa using models_new
  | succ k ih =>
      have h := ih.enqueue k
      rw [List.range_succ]
      exact h

theorem steps_prodState (N : Nat) : ∀ n, n ≤ N →
    Relation.ReflTransGen (CStep N) (TsQueue.new, 0, []) (prodState n, n, []) := by
  intro n
  induction n with
  | zero => intro _; exact Relation.ReflTransGen.refl
  | succ k ih =>
      intro hn
      exact Relation.ReflTransGen.tail (ih (by omega)) (CStep.produce _ k [] (by omega))

theorem steps_drain (N : Nat) :
    ∀ (vs : List Nat) (q : TsQueue Nat) (p : Nat) (acc : List Nat), Models q vs →
      ∃ q', Relation.ReflTransGen (CStep N) (q, p, acc) (q', p, acc ++ vs) ∧
        Models q' [] := by
  intro vs
  induction vs with
  | nil =>
      intro q p acc hm
      exact ⟨q, by simp only [List.append_nil]; exact Relation.ReflTransGen.refl, hm⟩
  | cons v vs ih =>
      intro q p acc hm
      obtain ⟨q1, heq, hm1, _⟩ := hm.dequeue_cons
      obtain ⟨q', hsteps, hq'⟩ := ih q1 p (acc ++ [v]) hm1
      refine ⟨q', ?_, hq'⟩
      have hstep : CStep N (q, p, acc) (q1, p, acc ++ [v]) := by
        have h : CStep N (q, p, acc) (q1, p, acc ++ (some v).toList) :=
          CStep.consume q q1 p acc (some v) heq
        simpa using h
      have hall := Relation.ReflTransGen.head hstep hsteps
      simpa [List.append_assoc] using hall

/-! ## Claims -/

/-- C1: for every sequence of values enqueued in order by a single thread
into a freshly constructed queue, that many subsequent dequeues return
exactly those values, wrapped in `some`, in the same order (and leave the
queue logically empty). -/
theorem fifo_order {α : Type} (vs : List α) :
    ∃ q', dequeueN vs.length (enqueueAll TsQueue.new vs) =
        Except.ok (vs.map some, q') ∧ Models q' [] := by
  have h : Models (enqueueAll TsQueue.new vs) vs := by
    simpa using models_new.enqueueAll_eq vs
  exact h.dequeueN_eq

/-- C2: `dequeue` returns absence exactly when the head and tail cursors
reference the same node (address identity), leaving the state unchanged in
that case; a fresh queue dequeues to absence, and so does any queue that is
logically empty again after enqueue/dequeue pairs. -/
theorem dequeue_empty_contract {α : Type} :
    ((TsQueue.new : TsQueue α).dequeue = Except.ok (none, TsQueue.new)) ∧
    (∀ q : TsQueue α, Models q [] → q.dequeue = Except.ok (none, q)) ∧
    (∀ (q q' : TsQueue α) (r : Option α), Reachable q →
      q.dequeue = Except.ok (r, q') →
      ((r = none ↔ q.head = q.tail) ∧ (r = none → q' = q))) := by
  refine ⟨models_new.dequeue_empty, fun q hm => hm.dequeue_empty, ?_⟩
  intro q q' r hr heq
  obtain ⟨vs, hm⟩ := reachable_models hr
  rcases dequeue_cases heq with ⟨hht, hrn, hq⟩ | ⟨hht, y, hnext, hrd, hq⟩
  · exact ⟨⟨fun _ => hht, fun _ => hrn⟩, fun _ => hq⟩
  · cases vs with
    | nil => exact absurd ((hm.head_eq_tail_iff).2 rfl) hht
    | cons v vs' =>
        have hdata := hm.head_node_cons.1
        have hr' : r = some v := by rw [hrd, hdata]
        refine ⟨⟨?_, fun h0 => absurd h0 hht⟩, ?_⟩
        · intro h0; rw [hr'] at h0; cases h0
        · intro h0; rw [hr'] at h0; cases h0

theorem dequeue_empty_contract_witness :
    ((none : Option ℕ) = none ↔
      (TsQueue.new : TsQueue ℕ).head = (TsQueue.new : TsQueue ℕ).tail) ∧
    (TsQueue.new : TsQueue ℕ) = TsQueue.new :=
  have h :=
    (dequeue_empty_contract).2.2 TsQueue.new TsQueue.new none Reachable.new rfl
  ⟨h.1, h.2 rfl⟩

/-- C3, counterexample: on the queue holding `[1, 2]`, dequeue returns `1`
and advances the head cursor to the successor node (address 1), but that
successor's payload is `2`, not the returned value — the returned payload
is stored in the discarded old head, not in the successor. -/
theorem dequeue_successor_payload_cex :
    deqVal (((TsQueue.new : TsQueue ℕ).enqueue 1).enqueue 2) = some (some 1) ∧
    (deqState (((TsQueue.new : TsQueue ℕ).enqueue 1).enqueue 2)).map TsQueue.head =
      some 1 ∧
    (getNode (((TsQueue.new : TsQueue ℕ).enqueue 1).enqueue 2).heap 1).data =
      some 2 ∧
    some (1 : ℕ) ≠ some 2 := by decide

/-- C3, amended: on every successful dequeue the operation discards the
node currently referenced by head (logging its release), advances head to
that node's successor, and returns the payload stored in the discarded old
head node (not in the successor). -/
theorem dequeue_returns_old_head_payload {α : Type} {q q' : TsQueue α} {v : α}
    (heq : q.dequeue = Except.ok (some v, q')) :
    (getNode q.heap q.head).data = some v ∧
    (getNode q.heap q.head).next = some q'.head ∧
    q'.dropLog = q.dropLog ++ [(q.head, (⟨none, none⟩ : Node α))] := by
  rcases dequeue_cases heq with ⟨_, hr, _⟩ | ⟨_, y, hnext, hr, hq⟩
  · cases hr
  · subst hq
    exact ⟨hr.symm, by rw [hnext], rfl⟩

theorem dequeue_returns_old_head_payload_witness :
    ((TsQueue.new : TsQueue ℕ).enqueue 5).dequeue =
      Except.ok (some 5,
        (⟨[⟨none, none⟩, ⟨none, none⟩], 1, 1, [(0, ⟨none, none⟩)]⟩ : TsQueue ℕ)) ∧
    ((getNode ((TsQueue.new : TsQueue ℕ).enqueue 5).heap
        ((TsQueue.new : TsQueue ℕ).enqueue 5).head).data = some 5 ∧
      (getNode ((TsQueue.new : TsQueue ℕ).enqueue 5).heap
        ((TsQueue.new : TsQueue ℕ).enqueue 5).head).next =
        some (⟨[⟨none, none⟩, ⟨none, none⟩], 1, 1,
              [(0, ⟨none, none⟩)]⟩ : TsQueue ℕ).head ∧
      (⟨[⟨none, none⟩, ⟨none, none⟩], 1, 1,
        [(0, ⟨none, none⟩)]⟩ : TsQueue ℕ).dropLog =
        ((TsQueue.new : TsQueue ℕ).enqueue 5).dropLog ++
          [(((TsQueue.new : TsQueue ℕ).enqueue 5).head, (⟨none, none⟩ : Node ℕ))]) :=
  ⟨rfl, dequeue_returns_old_head_payload rfl⟩

/-- C4, counterexample: the reachable state obtained by one enqueue on a
fresh queue has a head node holding the live payload `1` — the head node is
not payload-free. -/
theorem head_node_no_payload_cex :
    Reachable ((TsQueue.new : TsQueue ℕ).enqueue 1) ∧
    (getNode ((TsQueue.new : TsQueue ℕ).enqueue 1).heap
      ((TsQueue.new : TsQueue ℕ).enqueue 1).head).data = some 1 :=
  ⟨Reachable.enq 1 Reachable.new, by decide⟩

/-- C4, amended: in every reachable state, the payload-free open slot is
the node referenced by the *tail* cursor; the head node holds no payload
exactly when the queue is empty (head = tail), and otherwise holds the
first live (undequeued) element itself: whenever the state represents the
value sequence `v :: vs`, the head node's payload is `some v`. -/
theorem sentinel_at_tail {α : Type} {q : TsQueue α} (h : Reachable q) :
    getNode q.heap q.tail = ⟨none, none⟩ ∧
    ((getNode q.heap q.head).data = none ↔ q.head = q.tail) ∧
    (∀ (v : α) (vs : List α), Models q (v :: vs) →
      (getNode q.heap q.head).data = some v) := by
  obtain ⟨vs, hm⟩ := reachable_models h
  refine ⟨hm.tail_node, ?_, fun v vs' hm' => hm'.head_node_cons.1⟩
  cases vs with
  | nil =>
      have hht : q.head = q.tail := (hm.head_eq_tail_iff).2 rfl
      exact ⟨fun _ => hht, fun _ => by simp [hht, hm.tail_node]⟩
  | cons v vs' =>
      have h1 := hm.head_node_cons.1
      refine ⟨fun h2 => ?_, fun h2 => absurd h2 hm.cons_head_ne_tail⟩
      rw [h1] at h2
      cases h2

theorem sentinel_at_tail_witness :
    getNode ((TsQueue.new : TsQueue ℕ).enqueue 1).heap
      ((TsQueue.new : TsQueue ℕ).enqueue 1).tail = ⟨none, none⟩ ∧
    ((getNode ((TsQueue.new : TsQueue ℕ).enqueue 1).heap
        ((TsQueue.new : TsQueue ℕ).enqueue 1).head).data = none ↔
      ((TsQueue.new : TsQueue ℕ).enqueue 1).head =
        ((TsQueue.new : TsQueue ℕ).enqueue 1).tail) ∧
    (getNode ((TsQueue.new : TsQueue ℕ).enqueue 1).heap
      ((TsQueue.new : TsQueue ℕ).enqueue 1).head).data = some 1 :=
  have h := sentinel_at_tail (Reachable.enq 1 Reachable.new)
  have hm : Models ((TsQueue.new : TsQueue ℕ).enqueue 1) [1] :=
    ⟨[0, 1], rfl, rfl,
      chainOK.cons 0 1 [] 1 [] (by decide) (by decide)
        (chainOK.nil 1 (by decide) (by decide)),
      by decide⟩
  ⟨h.1, h.2.1, h.2.2 1 [] hm⟩

/-- C5: in every reachable state, head and tail reference nodes of one
single `next`-linked chain, with head reaching tail in zero or more steps,
and the node referenced by tail has no successor and no payload (it is the
open slot). -/
theorem chain_invariant {α : Type} {q : TsQueue α} (h : Reachable q) :
    (∃ addrs vs, addrs.head? = some q.head ∧ addrs.getLast? = some q.tail ∧
      chainOK q.heap addrs vs) ∧
    (getNode q.heap q.tail).next = none ∧
    (getNode q.heap q.tail).data = none := by
  obtain ⟨vs, hm⟩ := reachable_models h
  have ht := hm.tail_node
  obtain ⟨addrs, h1, h2, h3, _⟩ := hm
  exact ⟨⟨addrs, vs, h1, h2, h3⟩, by rw [ht], by rw [ht]⟩

theorem chain_invariant_witness :
    (∃ addrs vs, addrs.head? = some (TsQueue.new : TsQueue ℕ).head ∧
      addrs.getLast? = some (TsQueue.new : TsQueue ℕ).tail ∧
      chainOK (TsQueue.new : TsQueue ℕ).heap addrs vs) ∧
    (getNode (TsQueue.new : TsQueue ℕ).heap (TsQueue.new : TsQueue ℕ).tail).next =
      none ∧
    (getNode (TsQueue.new : TsQueue ℕ).heap (TsQueue.new : TsQueue ℕ).tail).data =
      none :=
  chain_invariant Reachable.new

/-- C6: whenever the emptiness check finds head and tail referencing
different nodes, the head node has a present `next` link, so the fatal
`expect` branch of `dequeue` is unreachable from any state reachable
through the public API: every dequeue on a reachable state returns `ok`. -/
theorem no_corruption_fatal_branch {α : Type} {q : TsQueue α} (h : Reachable q) :
    (q.head ≠ q.tail → (getNode q.heap q.head).next ≠ none) ∧
    ∃ r q', q.dequeue = Except.ok (r, q') := by
  obtain ⟨vs, hm⟩ := reachable_models h
  cases vs with
  | nil =>
      refine ⟨?_, none, q, hm.dequeue_empty⟩
      intro hne
      exact absurd ((hm.head_eq_tail_iff).2 rfl) hne
  | cons v vs' =>
      obtain ⟨q', heq, _⟩ := hm.dequeue_cons
      obtain ⟨_, y, hnext⟩ := hm.head_node_cons
      exact ⟨fun _ => by rw [hnext]; simp, some v, q', heq⟩

theorem no_corruption_fatal_branch_witness :
    (getNode ((TsQueue.new : TsQueue ℕ).enqueue 0).heap
        ((TsQueue.new : TsQueue ℕ).enqueue 0).head).next ≠ none ∧
    ∃ r q', ((TsQueue.new : TsQueue ℕ).enqueue 0).dequeue = Except.ok (r, q') :=
  have h := no_corruption_fatal_branch (Reachable.enq 0 Reachable.new)
  ⟨h.1 (by decide), h.2⟩

/-- C7: `enqueue` is total (no error path) and only touches the tail side:
the head cursor is unchanged, exactly one fresh node is allocated (the heap
grows by one), the old tail node now carries the value and the link to the
fresh node, the fresh node is empty, every other node is unchanged, and the
tail cursor moves to the fresh node. -/
theorem enqueue_frame {α : Type} {q : TsQueue α} (h : Reachable q) (v : α) :
    (q.enqueue v).head = q.head ∧
    (q.enqueue v).tail = q.heap.length ∧
    (q.enqueue v).heap.length = q.heap.length + 1 ∧
    getNode (q.enqueue v).heap q.tail = ⟨some v, some q.heap.length⟩ ∧
    getNode (q.enqueue v).heap q.heap.length = ⟨none, none⟩ ∧
    (∀ i, i < q.heap.length → i ≠ q.tail →
      getNode (q.enqueue v).heap i = getNode q.heap i) ∧
    (q.enqueue v).dropLog = q.dropLog := by
  obtain ⟨vs, hm⟩ := reachable_models h
  have ht := hm.tail_lt
  have hh := enqueue_heap q v ht
  refine ⟨rfl, rfl, enqueue_heap_length q v, ?_, ?_, ?_, rfl⟩
  · rw [hh]
    exact getNode_set_self _ _ _ (by simp; omega)
  · rw [hh, getNode_set_ne _ _ _ _ (Nat.ne_of_lt ht), getNode_append_length]
  · intro i hi hit
    rw [hh, getNode_set_ne _ _ _ _ (fun he => hit he.symm),
      getNode_append_left _ _ _ hi]

theorem enqueue_frame_witness :
    ((TsQueue.new : TsQueue ℕ).enqueue 7).head = (TsQueue.new : TsQueue ℕ).head ∧
    ((TsQueue.new : TsQueue ℕ).enqueue 7).tail =
      (TsQueue.new : TsQueue ℕ).heap.length ∧
    ((TsQueue.new : TsQueue ℕ).enqueue 7).heap.length =
      (TsQueue.new : TsQueue ℕ).heap.length + 1 ∧
    getNode ((TsQueue.new : TsQueue ℕ).enqueue 7).heap
      (TsQueue.new : TsQueue ℕ).tail = ⟨some 7, some 1⟩ :=
  have h := enqueue_frame Reachable.new 7
  ⟨h.1, h.2.1, h.2.2.1, h.2.2.2.1⟩

/-- C8: on every reachable state, the destructor's iterative walk releases
exactly the chain from the head cursor through the tail cursor, in order,
each node exactly once; the walk completes within `heap.length` steps, so
it terminates on every finite chain. -/
theorem destructor_releases_chain {α : Type} {q : TsQueue α} (h : Reachable q) :
    ∃ addrs vs, addrs.head? = some q.head ∧ addrs.getLast? = some q.tail ∧
      chainOK q.heap addrs vs ∧ addrs.Nodup ∧
      q.dropAll = addrs.map (fun a => (a, { getNode q.heap a with next := none })) := by
  obtain ⟨vs, hm⟩ := reachable_models h
  obtain ⟨addrs, h1, h2, h3, h4⟩ := hm
  have hnd : addrs.Nodup := pairwise_lt_nodup h4
  have hlen : addrs.length ≤ q.heap.length := nodup_length_le hnd (chainOK_bounds h3)
  exact ⟨addrs, vs, h1, h2, h3, hnd, dropWalk_chain h3 q.heap.length hlen q.head h1⟩

theorem destructor_releases_chain_witness :
    ∃ addrs vs, addrs.head? = some ((TsQueue.new : TsQueue ℕ).enqueue 3).head ∧
      addrs.getLast? = some ((TsQueue.new : TsQueue ℕ).enqueue 3).tail ∧
      chainOK ((TsQueue.new : TsQueue ℕ).enqueue 3).heap addrs vs ∧ addrs.Nodup ∧
      ((TsQueue.new : TsQueue ℕ).enqueue 3).dropAll =
        addrs.map (fun a =>
          (a, { getNode ((TsQueue.new : TsQueue ℕ).enqueue 3).heap a with
                  next := none })) :=
  destructor_releases_chain (Reachable.enq 3 Reachable.new)

/-- C9: under any interleaving of one producer enqueueing 0..9999 in order
with one consumer dequeueing in a loop, once the consumer's log ends with
9999 it is exactly `0, ..., 9999` in ascending order: elements are
delivered in enqueue order with no loss and no duplication. -/
theorem concurrent_fifo {q : TsQueue Nat} {p : Nat} {acc : List Nat}
    (h : Relation.ReflTransGen (CStep 10000) (TsQueue.new, 0, []) (q, p, acc))
    (hlast : acc.getLast? = some 9999) :
    acc = List.range 10000 :=
  interleave_collects_all h
    (by rw [(by norm_num : (10000 : Nat) - 1 = 9999)]; exact hlast)
    (by norm_num)

theorem concurrent_fifo_witness :
    ∃ q : TsQueue Nat,
      Relation.ReflTransGen (CStep 10000) (TsQueue.new, 0, [])
        (q, 10000, List.range 10000) ∧
      (List.range 10000).getLast? = some 9999 ∧
      List.range 10000 = List.range 10000 := by
  obtain ⟨q', hsteps, _⟩ :=
    steps_drain 10000 (List.range 10000) (prodState 10000) 10000 []
      (models_prodState 10000)
  have h1 : Relation.ReflTransGen (CStep 10000) (TsQueue.new, 0, [])
      (q', 10000, List.range 10000) := by
    have h2 := Relation.ReflTransGen.trans
      (steps_prodState 10000 10000 (le_refl 10000)) hsteps
    simpa using h2
  have hlast : (List.range 10000).getLast? = some 9999 := by
    rw [(by norm_num : (10000 : Nat) = 9999 + 1), List.range_succ]
    simp
  exact ⟨q', h1, hlast, concurrent_fifo h1 hlast⟩

/-- C10: a node is never released with its `next` link still present: every
drop performed by `dequeue` (the old head box, after both `take`s) and
every drop performed by the destructor walk carries `next = none`, so
`Node`'s recursive successor-release never fires on a node that still has a
successor. -/
theorem released_nodes_detached {α : Type} {q : TsQueue α} (h : Reachable q) :
    (∀ e ∈ q.dropLog, e.2.next = none) ∧ ∀ e ∈ q.dropAll, e.2.next = none := by
  constructor
  · induction h with
    | new => intro e he; simp [TsQueue.new, allocNode] at he
    | enq v hr ih =>
        intro e he
        rw [enqueue_dropLog] at he
        exact ih e he
    | deq hr heq ih =>
        intro e he
        rcases dequeue_cases heq with ⟨_, _, hq⟩ | ⟨_, y, _, _, hq⟩
        · subst hq; exact ih e he
        · subst hq
          simp only [List.mem_append, List.mem_singleton] at he
          rcases he with he | he
          · exact ih e he
          · rw [he]
  · intro e he
    exact dropWalk_next_none q.heap q.heap.length q.head e he

theorem released_nodes_detached_witness :
    ((0, (⟨none, none⟩ : Node ℕ)) : Nat × Node ℕ).2.next = none ∧
    ((1, (⟨none, none⟩ : Node ℕ)) : Nat × Node ℕ).2.next = none :=
  have hq : ((TsQueue.new : TsQueue ℕ).enqueue 2).dequeue =
      Except.ok (some 2,
        (⟨[⟨none, none⟩, ⟨none, none⟩], 1, 1, [(0, ⟨none, none⟩)]⟩ : TsQueue ℕ)) :=
    rfl
  have h := released_nodes_detached (Reachable.deq (Reachable.enq 2 Reachable.new) hq)
  ⟨h.1 (0, ⟨none, none⟩) (by simp), h.2 (1, ⟨none, none⟩) (by decide)⟩
